import Mathlib

/-!
Verification of the inverted-index builder (external-sort pipeline).

This file gives a shallow embedding, in Lean, of the parts of the Rust
sources that the specification talks about, and proves or refutes the
spec claims against that embedding.

Conventions of the embedding:
* Machine integers (`u64`, `usize`, `u8`) become `Nat`; bitwise
  operations on bytes are rendered arithmetically (`v & 0x7f = v % 128`,
  `v >> 7 = v / 128`, `b & 0x80 != 0 ↔ 128 ≤ b` for a byte `b < 256`).
* A file being read is a `List Nat` of bytes (every element < 256 by
  construction); reading past the end, which in the source either
  surfaces an `Err`/`None` or diverges, is modelled by `Option`.
* Stateful loops become structural recursion on the consumed stream or
  explicitly fuelled recursion when a loop may re-enter without
  consuming input.
-/

namespace InfPr7

/-! ## Varint codec (`src/save/src/writer.rs`)

`variable_save_u64` writes the 7-bit groups of `v` little-endian; every
non-final byte has the high bit clear and the final byte is
`0x80 | (v & 0x7f)`.  `variable_load` accumulates 7-bit groups until it
meets a byte with the high bit set, which contributes its low 7 bits and
ends the number. -/

/-- Loop of `variable_save_u64` (writer.rs lines 78-93), with an
explicit iteration bound: since `v / 128 < v` for `v > 0`, a fuel of `v`
always suffices, so the fuel-exhausted branch is unreachable from
`variableSaveU64` (the bound exists only to make the recursion
structural, hence kernel-reducible). -/
def variableSaveGo : Nat → Nat → List Nat
  | 0, v => [v % 128 + 128]
  | fuel + 1, v =>
    if 0 < v / 128 then v % 128 :: variableSaveGo fuel (v / 128)
    else [v % 128 + 128]

/-- Embedding of `variable_save_u64` (writer.rs lines 78-93): the loop
`while next > 0` emits `v & 0x7f` and shifts; the final write sets the
high bit.  `v & 0x7f` is `v % 128` and `v >> 7` is `v / 128`. -/
def variableSaveU64 (v : Nat) : List Nat :=
  variableSaveGo v v

/-- Loop of `variable_load` (writer.rs lines 95-111): `acc` is the value
accumulated so far and `shift` the current shift, kept as the factor
`2 ^ shift`.  Reading past the end of the stream (the source then spins
on a zero buffer or misreads) is modelled as `none`. -/
def variableLoadAux : List Nat → Nat → Nat → Option (Nat × List Nat)
  | [], _, _ => none
  | b :: rest, acc, shift =>
    if 128 ≤ b then some (acc + b % 128 * 2 ^ shift, rest)
    else variableLoadAux rest (acc + b * 2 ^ shift) (shift + 7)

/-- Embedding of `variable_load` (writer.rs lines 95-111). -/
def variableLoad (s : List Nat) : Option (Nat × List Nat) :=
  variableLoadAux s 0 0

/-! ## Sorted linked map (`src/main/src/listmap.rs`)

`SortedLinkedMap<T, G>` is a singly linked chain of key-value nodes.
The embedding keeps the chain as a list of pairs in spine order together
with the stored `size` counter, which the source maintains separately
from the actual number of nodes.  Keys are specialised to `Nat`
(`T = usize` everywhere in this program). -/

/-- Per-document usage record (`UsageData<S>` with `S = CommonSegments`,
indexed.rs lines 202-225): a `usize` occurrence count plus the one-byte
zone bitfield, kept as its byte value. -/
structure UsageData where
  use_count : Nat
  segments : Nat
  deriving DecidableEq

/-- Chain and size counter of a `SortedLinkedMap` (listmap.rs lines
18-24). -/
structure SortedLinkedMap (G : Type) where
  chain : List (Nat × G)
  size : Nat
  deriving DecidableEq

/-- `SortedLinkedMap::new` (listmap.rs lines 27-32). -/
def SortedLinkedMap.new {G : Type} : SortedLinkedMap G := ⟨[], 0⟩

/-- Walk of `SortedLinkedMap::push` (listmap.rs lines 38-76), returning
the new chain and the amount added to `size`.  The walk advances while
the node has a successor and `key > current.0`; at a node with a
successor it inserts strictly smaller keys in front and silently drops a
key equal to the current one; at the last node it inserts on either
side, or drops an equal key, but increments `size` in all three
subcases. -/
def pushChain {G : Type} : List (Nat × G) → Nat → G → List (Nat × G) × Nat
  | [], k, v => ([(k, v)], 1)
  | [c], k, v =>
    if k < c.1 then ([(k, v), c], 1)
    else if c.1 < k then ([c, (k, v)], 1)
    else ([c], 1)
  | c :: c2 :: rest, k, v =>
    if k ≤ c.1 then
      if k < c.1 then ((k, v) :: c :: c2 :: rest, 1)
      else (c :: c2 :: rest, 0)
    else
      let r := pushChain (c2 :: rest) k v
      (c :: r.1, r.2)

/-- `SortedLinkedMap::push` (listmap.rs lines 38-76). -/
def SortedLinkedMap.push {G : Type} (m : SortedLinkedMap G) (k : Nat) (v : G) :
    SortedLinkedMap G :=
  ⟨(pushChain m.chain k v).1, m.size + (pushChain m.chain k v).2⟩

/-- `SortedLinkedMap::len` (listmap.rs lines 78-80): returns the stored
counter. -/
def SortedLinkedMap.len {G : Type} (m : SortedLinkedMap G) : Nat := m.size

/-- The sequence of entries yielded by `LinkedMapIterator` (listmap.rs
lines 210-226): the chain in spine order. -/
def SortedLinkedMap.iterList {G : Type} (m : SortedLinkedMap G) : List (Nat × G) :=
  m.chain

/-- A map built by a sequence of `push(key, value)` calls starting from
`new`. -/
def buildMap {G : Type} (ops : List (Nat × G)) : SortedLinkedMap G :=
  ops.foldl (fun m kv => m.push kv.1 kv.2) SortedLinkedMap.new

/-- Number of pushes in `ops` (applied to `m`) whose key equals the key
of the then-current last node; these are exactly the pushes on which the
source increments `size` without inserting a node. -/
def degPushCount {G : Type} : SortedLinkedMap G → List (Nat × G) → Nat
  | _, [] => 0
  | m, (k, v) :: ops =>
    (if m.chain.getLast?.map Prod.fst = some k then 1 else 0)
      + degPushCount (m.push k v) ops

/-- Loop of `SortedLinkedMap::or` (listmap.rs lines 94-134) from the
node `fc` onward.  First argument list is the remaining chain of `self`
starting at `fc` (the source panics when `self` is empty; callers guard
that).  Returns the merged remainder and the amount added to `size`.
The inner while-loop inserts smaller keys of `other` in front of `fc`;
on equal keys the combinator runs (the value kept is `map fc sc`) and
`other` advances; then `fc` advances, and when `fc` is the last node the
trailing loop of the source repeatedly overwrites `fc.2` with a fresh
single node, so only the LAST remaining entry of `other` survives, while
`size` is still incremented once per remaining entry. -/
def orGo {G : Type} (map : G → G → G) :
    List (Nat × G) → List (Nat × G) → List (Nat × G) × Nat
  | fc, [] => (fc, 0)
  | [], _ :: _ => ([], 0)
  | f :: frest, s :: srest =>
    if s.1 < f.1 then
      let r := orGo map (f :: frest) srest
      (s :: r.1, r.2 + 1)
    else
      let f2 := if f.1 = s.1 then (f.1, map f.2 s.2) else f
      let sc2 := if f.1 = s.1 then srest else s :: srest
      match frest with
      | [] =>
        (f2 :: (match sc2.getLast? with | some l => [l] | none => []), sc2.length)
      | g :: grest =>
        let r := orGo map (g :: grest) sc2
        (f2 :: r.1, r.2)
termination_by fc sc => fc.length + sc.length
decreasing_by
  · simp_arith
  · simp only [List.length_cons]
    split <;> simp_arith

/-- `SortedLinkedMap::or` (listmap.rs lines 94-134); `none` models the
panic (`self.start.as_mut().unwrap()`) on an empty receiver. -/
def SortedLinkedMap.or {G : Type} (m oth : SortedLinkedMap G) (map : G → G → G) :
    Option (SortedLinkedMap G) :=
  match m.chain with
  | [] => none
  | f :: rest =>
    let r := orGo map (f :: rest) oth.chain
    some ⟨r.1, m.size + r.2⟩

/-! ## IndexedTerm and combine (`src/main/src/indexed.rs`) -/

/-- `IndexedTerm<S>` with `S = CommonSegments` (indexed.rs lines
42-47). -/
structure IndexedTerm where
  term : String
  use_count : Nat
  indexes : SortedLinkedMap UsageData
  deriving DecidableEq

/-- `Term::combine` for `IndexedTerm` (indexed.rs lines 79-88): sums the
use counts and merges the posting maps with `SortedLinkedMap::or`,
passing the combinator `|_, _| {}` — a no-op, so on a key collision the
left value is kept unchanged.  `none` models the panic of `or` on an
empty left map. -/
def IndexedTerm.combine (a b : IndexedTerm) : Option IndexedTerm := do
  let merged ← a.indexes.or b.indexes (fun x _ => x)
  some { a with use_count := a.use_count + b.use_count, indexes := merged }

/-- Strict ascent of the keys along a chain. -/
def keyAsc {G : Type} (l : List (Nat × G)) : Prop :=
  l.Pairwise (fun a b => a.1 < b.1)

/-! ## UTF-8 readers (`src/save/src/u8.rs`) -/

/-- `char::from_u32`: `some` exactly on Unicode scalar values. -/
def fromU32 (n : Nat) : Option Char :=
  if h : n.isValidChar then some (Char.ofNatAux n h) else none

/-- Embedding of `read_char` (u8.rs lines 94-133) over a byte stream.
The first byte selects the sequence length (`>= 0xF0`: three more
bytes, `>= 0xE0`: two, `>= 0xC0`: one, otherwise none — so a lone
continuation byte `0x80..0xBF` falls into the single-byte branch);
continuation bytes contribute their low six bits without any
validation.  Missing continuation bytes and invalid scalar values both
yield `none`, exactly as the source returns `None`.  Bit operations:
`b & 0b111 = b % 8`, `b & 0b1111 = b % 16`, `b & 0b11111 = b % 32`,
`b & 0b111111 = b % 64`; shifts by 18/12/6 are factors 262144/4096/64. -/
def read_char : List Nat → Option (Char × List Nat)
  | [] => none
  | b :: rest =>
    if 240 ≤ b then
      match rest with
      | r0 :: r1 :: r2 :: rest2 =>
        (fromU32 (b % 8 * 262144 + r0 % 64 * 4096 + r1 % 64 * 64 + r2 % 64)).map
          (fun c => (c, rest2))
      | _ => none
    else if 224 ≤ b then
      match rest with
      | r0 :: r1 :: rest2 =>
        (fromU32 (b % 16 * 4096 + r0 % 64 * 64 + r1 % 64)).map (fun c => (c, rest2))
      | _ => none
    else if 192 ≤ b then
      match rest with
      | r0 :: rest2 =>
        (fromU32 (r0 % 64 + b % 32 * 64)).map (fun c => (c, rest2))
      | _ => none
    else (fromU32 b).map (fun c => (c, rest))

/-- Embedding of `read_char_reader` (u8.rs lines 168-190): same decoding
as `read_char` but over a `BufReader`, so a missing byte is an I/O error
and an invalid scalar value is the `InvalidData` error of the source. -/
def read_char_reader : List Nat → Except String (Char × List Nat)
  | [] => .error "eof"
  | b :: rest =>
    if 240 ≤ b then
      match rest with
      | r0 :: r1 :: r2 :: rest2 =>
        match fromU32 (b % 8 * 262144 + r0 % 64 * 4096 + r1 % 64 * 64 + r2 % 64) with
        | some c => .ok (c, rest2)
        | none => .error "char doesn't follow utf standard"
      | _ => .error "eof"
    else if 224 ≤ b then
      match rest with
      | r0 :: r1 :: rest2 =>
        match fromU32 (b % 16 * 4096 + r0 % 64 * 64 + r1 % 64) with
        | some c => .ok (c, rest2)
        | none => .error "char doesn't follow utf standard"
      | _ => .error "eof"
    else if 192 ≤ b then
      match rest with
      | r0 :: rest2 =>
        match fromU32 (r0 % 64 + b % 32 * 64) with
        | some c => .ok (c, rest2)
        | none => .error "char doesn't follow utf standard"
      | _ => .error "eof"
    else
      match fromU32 b with
      | some c => .ok (c, rest)
      | none => .error "char doesn't follow utf standard"

/-- The codepoint the two decoders assemble from a lead byte and the
continuation bytes its range demands (the shared bit arithmetic of
u8.rs lines 101-127 and 174-187); `none` when the stream holds fewer
continuation bytes than the lead byte requires (a truncated
sequence). -/
def assembledCodepoint (b : Nat) (rest : List Nat) : Option Nat :=
  if 240 ≤ b then
    match rest with
    | r0 :: r1 :: r2 :: _ =>
      some (b % 8 * 262144 + r0 % 64 * 4096 + r1 % 64 * 64 + r2 % 64)
    | _ => none
  else if 224 ≤ b then
    match rest with
    | r0 :: r1 :: _ => some (b % 16 * 4096 + r0 % 64 * 64 + r1 % 64)
    | _ => none
  else if 192 ≤ b then
    match rest with
    | r0 :: _ => some (r0 % 64 + b % 32 * 64)
    | _ => none
  else some b

/-! ## Posting-map serialization (`src/main/src/listmap.rs` lines
228-260 and the `VariableSaveD` derive of `src/mcr/src/lib.rs`)

`UsageData` derives `VariableSaveD`, so it saves its fields in
declaration order: the varint `use_count`, then the one byte of
`CommonSegments`.  `CommonSegments::variable_load` uses `read`, which at
end of file reads zero bytes and leaves the zeroed buffer, so it
succeeds with byte 0 there. -/

/-- UTF-8 encoding of one character (the byte view `str::as_bytes` of
the source strings). -/
def charUtf8 (c : Char) : List Nat :=
  let n := c.toNat
  if n < 128 then [n]
  else if n < 2048 then [192 + n / 64, 128 + n % 64]
  else if n < 65536 then [224 + n / 4096, 128 + n / 64 % 64, 128 + n % 64]
  else [240 + n / 262144, 128 + n / 4096 % 64, 128 + n / 64 % 64, 128 + n % 64]

/-- Byte view of a string. -/
def strBytes (s : String) : List Nat :=
  (s.data.map charUtf8).flatten

/-- Serialization of `UsageData` (derive `VariableSaveD`): varint
`use_count`, then the `CommonSegments` byte. -/
def usageSave (u : UsageData) : List Nat :=
  variableSaveU64 u.use_count ++ [u.segments]

/-- `CommonSegments::variable_load`: one byte, or 0 at end of stream. -/
def segLoad : List Nat → Nat × List Nat
  | [] => (0, [])
  | b :: rest => (b, rest)

/-- Deserialization of `UsageData`. -/
def usageLoad (s : List Nat) : Option (UsageData × List Nat) := do
  let (n, s) ← variableLoad s
  let (b, s) := segLoad s
  some (⟨n, b⟩, s)

/-- Body loop of `SortedLinkedMap::variable_save` (listmap.rs lines
230-242): for every entry after the first it writes the key delta and
then the PREVIOUS entry value; the value of the last entry is never
written. -/
def mapSaveGo : Nat → UsageData → List (Nat × UsageData) → List Nat
  | _, _, [] => []
  | pk, pv, (k, v) :: tl => variableSaveU64 (k - pk) ++ usageSave pv ++ mapSaveGo k v tl

/-- `SortedLinkedMap::variable_save` (listmap.rs lines 230-242): varint
of the stored `size` counter, varint of the first key, then the body
loop.  `none` models the `iter.next().unwrap()` panic on an empty
chain. -/
def mapSave (m : SortedLinkedMap UsageData) : Option (List Nat) :=
  match m.chain with
  | [] => none
  | (k0, v0) :: rest =>
    some (variableSaveU64 m.size ++ variableSaveU64 k0 ++ mapSaveGo k0 v0 rest)

/-- Loop of `SortedLinkedMap::variable_load` (listmap.rs lines 250-257):
each of the remaining `size - 1` entries is read as key delta first,
then value, and inserted with `push`. -/
def mapLoadGo : Nat → Nat → SortedLinkedMap UsageData → List Nat →
    Option (SortedLinkedMap UsageData × List Nat)
  | 0, _, m, s => some (m, s)
  | n + 1, prev, m, s => do
    let (d, s) ← variableLoad s
    let (v, s) ← usageLoad s
    mapLoadGo n (prev + d) (m.push (prev + d) v) s

/-- `SortedLinkedMap::variable_load` (listmap.rs lines 244-259): size,
then first key followed immediately by its value, then the loop. -/
def mapLoad (s : List Nat) : Option (SortedLinkedMap UsageData × List Nat) := do
  let (size, s) ← variableLoad s
  if size = 0 then some (SortedLinkedMap.new, s)
  else do
    let (k0, s) ← variableLoad s
    let (v0, s) ← usageLoad s
    mapLoadGo (size - 1) k0 (SortedLinkedMap.new.push k0 v0) s

/-! ## Sorted-run writer and reader (`src/main/src/indexed.rs`) -/

/-- `count_same` (indexed.rs lines 769-780): byte length of the longest
common character prefix. -/
def countSameGo : List Char → List Char → Nat
  | a :: as, b :: bs => if a = b then a.utf8Size + countSameGo as bs else 0
  | _, _ => 0

/-- `count_same` on strings. -/
def count_same (f s : String) : Nat :=
  countSameGo f.data s.data

/-- Fixed-width dictionary record (`IndexedCursor`, indexed.rs lines
789-828). -/
structure IndexedCursor where
  lexical_pointer : Nat
  lexical_index : Nat
  indexes_pointer : Nat
  use_count : Nat
  deriving DecidableEq

instance : Inhabited IndexedTerm := ⟨⟨"", 0, SortedLinkedMap.new⟩⟩

/-- State of `IndexMergeSaver` (indexed.rs lines 660-692).  The
`dictionary.txt` records after the `u64` header are kept structured as
`cursors`; `lexical_part` and `index_part` are byte streams whose
lengths are the `CountedWriter` byte counters. -/
structure IndexMergeSaver where
  cursors : List IndexedCursor
  lexical_part : List Nat
  index_part : List Nat
  buffer_items : List IndexedTerm
  current_substr_size : Nat
  max_part_size : Nat
  current_directory_size : Nat
  deriving DecidableEq

/-- `IndexMergeSaver::new` (indexed.rs lines 672-692). -/
def IndexMergeSaver.new (max_size : Nat) : IndexMergeSaver :=
  ⟨[], [], [], [], 0, max_size, 0⟩

/-- Per-item loop of `IndexMergeSaver::flush` (indexed.rs lines
707-723): append the cursor (pointing at the block start and the
current end of `index_part`), then the posting serialization, then the
suffix length and suffix bytes. -/
def flushItems (lexPtr substr : Nat) :
    List IndexedTerm → Nat → List IndexedCursor → List Nat → List Nat →
    Option (List IndexedCursor × List Nat × List Nat)
  | [], _, cs, lex, idx => some (cs, lex, idx)
  | t :: ts, i, cs, lex, idx => do
    let cs2 := cs ++ [⟨lexPtr, i, idx.length, t.use_count⟩]
    let body ← mapSave t.indexes
    let idx2 := idx ++ body
    let suffix := (strBytes t.term).drop substr
    let lex2 := lex ++ variableSaveU64 suffix.length ++ suffix
    flushItems lexPtr substr ts (i + 1) cs2 lex2 idx2

/-- `IndexMergeSaver::flush` (indexed.rs lines 694-725). -/
def IndexMergeSaver.flush (sv : IndexMergeSaver) : Option IndexMergeSaver :=
  match sv.buffer_items with
  | [] => some sv
  | t0 :: _ => do
    let lexPtr := sv.lexical_part.length
    let lex := sv.lexical_part ++ variableSaveU64 sv.current_substr_size
        ++ (strBytes t0.term).take sv.current_substr_size
    let (cs, lex, idx) ←
      flushItems lexPtr sv.current_substr_size sv.buffer_items 0 sv.cursors lex
        sv.index_part
    some { sv with cursors := cs, lexical_part := lex, index_part := idx,
                   buffer_items := [] }

/-- `IndexMergeSaver::push` (indexed.rs lines 740-766), including the
adaptive re-blocking: flush on a full buffer; otherwise compare the
common-prefix length `size` of the new term with the buffered last term
against `current_substr_size` and either carry the last term into a new
block, extend the prefix downward, or flush and reset. -/
def IndexMergeSaver.push (sv : IndexMergeSaver) (term : IndexedTerm) :
    Option IndexMergeSaver := do
  let sv ←
    if sv.buffer_items.length = sv.max_part_size then do
      let sv ← sv.flush
      pure { sv with current_substr_size := 0 }
    else if 0 < sv.buffer_items.length then
      let last := sv.buffer_items.getLast!
      let size := count_same last.term term.term
      if sv.current_substr_size < size then do
        let sv2 ← { sv with buffer_items := sv.buffer_items.dropLast }.flush
        pure { sv2 with current_substr_size := size,
                        buffer_items := sv2.buffer_items ++ [last] }
      else if sv.buffer_items.length * sv.current_substr_size
          < (sv.buffer_items.length + 1) * size then
        pure { sv with current_substr_size := size }
      else do
        let sv2 ← sv.flush
        pure { sv2 with current_substr_size := 0 }
    else pure { sv with current_substr_size := 0 }
  pure { sv with buffer_items := sv.buffer_items ++ [term],
                 current_directory_size := sv.current_directory_size + 1 }

/-- The on-disk artifact after `IndexMergeSaver::finish` (indexed.rs
lines 727-738): final header term count plus the three file contents. -/
structure SavedRun where
  term_count : Nat
  cursors : List IndexedCursor
  lexical : List Nat
  index : List Nat
  deriving DecidableEq

/-- `IndexMergeSaver::finish`: flush the remaining buffer and rewrite
the header with `current_directory_size`. -/
def IndexMergeSaver.finish (sv : IndexMergeSaver) : Option SavedRun := do
  let sv ← sv.flush
  some ⟨sv.current_directory_size, sv.cursors, sv.lexical_part, sv.index_part⟩

/-- Character-reading loop of `IndexTermProvider::next_term` (indexed.rs
lines 618-628 and 634-644): read characters while `skip > 0`,
subtracting each character's UTF-8 length. -/
def readCharsGo : Nat → Nat → String → List Nat → Option (String × List Nat)
  | _, 0, acc, s => some (acc, s)
  | 0, _ + 1, _, _ => none
  | fuel + 1, skip + 1, acc, s =>
    match read_char_reader s with
    | .error _ => none
    | .ok (c, s2) => readCharsGo fuel (skip + 1 - c.utf8Size) (acc.push c) s2

/-- The character-reading loop entered with `skip` bytes to consume.
The fuel of `readCharsGo` only makes the recursion structural: `skip`
never increases and each step lowers it by the character size (at
least 1), so a fuel equal to the initial `skip` always suffices. -/
def readChars (skip : Nat) (acc : String) (s : List Nat) :
    Option (String × List Nat) :=
  readCharsGo skip skip acc s

/-- Reader state of `IndexTermProvider` (indexed.rs lines 550-570) over
a saved run: remaining cursor records, remaining bytes of the two
sequentially read streams, and the cached block prefix. -/
structure IndexTermProvider where
  cursors : List IndexedCursor
  lexical : List Nat
  index : List Nat
  first_part : String
  first_part_pointer : Option Nat
  remaining_size : Nat
  deriving DecidableEq

/-- `IndexTermProvider::new` (indexed.rs lines 558-570): the header read
seeds `remaining_size`. -/
def IndexTermProvider.ofRun (r : SavedRun) : IndexTermProvider :=
  ⟨r.cursors, r.lexical, r.index, "", none, r.term_count⟩

/-- `IndexTermProvider::next_term` (indexed.rs lines 576-658): read one
cursor; re-read the block prefix only when `lexical_pointer` changed;
read the suffix; then deserialize the posting map from the current
position of `index_part`. -/
def IndexTermProvider.next_term (p : IndexTermProvider) :
    Option (IndexedTerm × IndexTermProvider) :=
  if p.remaining_size = 0 then none
  else do
    let (cur, cursors) ← match p.cursors with
      | [] => none
      | c :: cs => some (c, cs)
    let (first_part, fpp, lexical) ←
      if p.first_part_pointer = some cur.lexical_pointer then
        pure (p.first_part, p.first_part_pointer, p.lexical)
      else do
        let (skip, lex) ← variableLoad p.lexical
        let (fp, lex) ← readChars skip "" lex
        pure (fp, some cur.lexical_pointer, lex)
    let (skip, lexical) ← variableLoad lexical
    let (suffix, lexical) ← readChars skip "" lexical
    let (indexes, index) ← mapLoad p.index
    some (⟨first_part ++ suffix, cur.use_count, indexes⟩,
      ⟨cursors, lexical, index, first_part, fpp, p.remaining_size - 1⟩)

/-! ## K-way merge loop (`src/main/src/indexed.rs` lines 344-430)

The loop of `IndexMerger::merge` keeps a `BinaryHeap` of
`(Reverse(term), providerIdx)`.  The heap is primed with one term from
each provider, and every popped provider is advanced (and, if a term
remains, re-pushed) before the next round, so throughout the run the
heap holds exactly the current head term of every non-exhausted
provider.  One round pops the minimum term together with every
equal-keyed entry, combines them, advances exactly the popped
providers, and writes the combined term once.  The model below renders
the provider streams directly: a round selects the minimum of the head
terms, advances every stream whose head equals it, and emits the term.
Combining (and the order in which equal-keyed contributors are
combined) does not influence which terms are emitted. -/

/-- Minimum among the head terms of the streams (the heap top and its
equal-keyed companions are exactly the heads attaining it). -/
def minHead? {α : Type} [LinearOrder α] : List (List α) → Option α
  | [] => none
  | [] :: rest => minHead? rest
  | (a :: _) :: rest =>
    match minHead? rest with
    | none => some a
    | some b => some (min a b)

/-- One merge round: every stream whose head equals the written term is
advanced by one element. -/
def mergeStep {α : Type} [LinearOrder α] (streams : List (List α)) (t : α) :
    List (List α) :=
  streams.map (fun s => if s.head? = some t then s.tail else s)

/-- The merge loop, fuelled; the total number of elements bounds the
number of rounds, since each round removes at least one element. -/
def mergeRun {α : Type} [LinearOrder α] : Nat → List (List α) → List α
  | 0, _ => []
  | fuel + 1, streams =>
    match minHead? streams with
    | none => []
    | some t => t :: mergeRun fuel (mergeStep streams t)

/-- The sequence of terms the merger writes to the final dictionary. -/
def mergeOut {α : Type} [LinearOrder α] (streams : List (List α)) : List α :=
  mergeRun (streams.map List.length).sum streams

/-! ## Pipeline controller (`src/parser/src/parser.rs`) -/

/-- `IndexPositions` (parser.rs lines 106-109): per input file its
per-file zone-traversal counter, plus the global docId manifest. -/
structure IndexPositions where
  names : List (String × Nat)
  ids : List (Nat × Nat)
  deriving DecidableEq

/-- `IndexPositions::put` (parser.rs lines 119-124): append
`(name_index, counter)` to the manifest, bump the counter, and return
`ids.len() - 1`.  `none` models the index-out-of-bounds panic of
`self.names[name_index]` when `name_index` is past the end. -/
def IndexPositions.put (p : IndexPositions) (name_index : Nat) :
    Option (IndexPositions × Nat) :=
  match p.names.get? name_index with
  | none => none
  | some (nm, cnt) =>
    some (⟨p.names.set name_index (nm, cnt + 1), p.ids ++ [(name_index, cnt)]⟩,
      (p.ids ++ [(name_index, cnt)]).length - 1)

/-- The guard of the initial file claim in the worker task (parser.rs
lines 174-181): the worker returns — without flushing anything — when
`files.names.len() >= next_file`. -/
def workerInitialClaimExits (namesLen next_file : Nat) : Bool :=
  decide (namesLen ≥ next_file)

/-- Modelled from the claim for comparison: the worker is supposed to
exit (after spilling the remainder) exactly when the claimed index is
past the end of the input file list. -/
def workerInitialClaimExitsSpec (namesLen next_file : Nat) : Bool :=
  decide (next_file ≥ namesLen)

/-! ## Zone rotation (`src/parser/src/rep_reader.rs`) -/

/-- `transform_zone` (rep_reader.rs lines 213-216):
`attribute_index += 1; attribute_index %= attribute_order.len()`. -/
def transform_zone (len idx : Nat) : Nat :=
  (idx + 1) % len

/-- `zone()` (rep_reader.rs lines 218-220). -/
def zoneAt (zones : List String) (idx : Nat) : Option String :=
  zones.get? idx

/-! ## Zoned XML tokenizer (`src/main/src/reader.rs` and
`src/parser/src/rep_reader.rs`)

`interpret_character` is embedded on the ASCII fragment: Lean's
`Char.isAlpha`, `Char.isDigit` and `Char.toLower` agree with Rust's
Unicode `is_alphabetic`, `is_ascii_digit` and `to_lowercase` on every
ASCII codepoint (where `to_lowercase` is a single character), and every
input considered in this file is ASCII.  The loops are fuelled; one
fuel unit is spent per loop iteration, so any fuel larger than the
stream length is enough, and the fuel-exhausted branch returns the same
`none` that the source produces at end of input. -/

/-- `CharType` (reader.rs lines 20-25); `letter` carries the lowercased
character. -/
inductive CharType
  | letter (c : Char)
  | ordinary (c : Char)
  | delim (c : Char)
  | eof
  deriving DecidableEq

/-- The delimiter characters of `interpret_character` (reader.rs lines
50-78); `Char.ofNat 123` and `Char.ofNat 125` are the curly braces. -/
def delimChars : List Char :=
  [',', '.', ';', '(', ')', '"', '|', '\\', '/', '=', '-', '+', '*', '<', '>',
   Char.ofNat 123, Char.ofNat 125, '[', ']', ':', '!', '?', '，', '；', '。', '、']

/-- The ASCII whitespace characters with the Unicode `White_Space`
property (the fragment of `char::is_whitespace` relevant here). -/
def asciiWhitespace : List Char :=
  [' ', '\t', '\n', '\x0b', '\x0c', '\r']

/-- `CommCharInterpreter::interpret_character` (reader.rs lines 44-87)
on the ASCII fragment. -/
def interpret_character (c : Char) : CharType :=
  if c.isAlpha then .letter c.toLower
  else if c ∈ asciiWhitespace ∨ c.isDigit ∨ c ∈ delimChars then .delim c
  else if c = '\x00' then .eof
  else .ordinary c

/-- `WordOption` (reader.rs lines 89-101). -/
inductive WordOption
  | word (s : String)
  | empty
  deriving DecidableEq

/-- The helper `passable` (reader.rs lines 143-152): non-empty and
containing at least one letter. -/
def passable (s : String) : Bool :=
  !s.data.isEmpty && s.data.any (fun c =>
    match interpret_character c with
    | .letter _ => true
    | _ => false)

/-- Byte-level `str::ends_with` for the ASCII entity suffixes: on a
UTF-8 byte view, ending in an ASCII string is exactly ending in its
character sequence. -/
def strEndsWith (s p : String) : Bool :=
  decide (s.data.reverse.take p.data.length = p.data.reverse)

/-- `delete_char_range` of the last `n` bytes of `start`: on the ASCII
entities this removes the last `n` characters. -/
def strDropRight (s : String) (n : Nat) : String :=
  ⟨s.data.take (s.data.length - n)⟩

/-- `XmlWordProvider::next_word` (reader.rs lines 131-228) over a byte
stream, returning the result, the new `previous` and the remaining
stream.  The apostrophe is `Char.ofNat 39`.  Note the control flow of
the Delimiter arm: the branch for `;` after `&apos` replaces the last
five characters by an apostrophe but does NOT break, so execution falls
through to `start.clear()` at the end of the arm and the accumulated
token is discarded; the other entity branches break only when the
remaining `start` is passable.  `delete_char_range` on the last 5/4/3
bytes is `String.dropRight` of that many characters on these ASCII
entities. -/
def next_word : Nat → List Nat → String → Option Char →
    Option WordOption × Option Char × List Nat
  | 0, s, _, prev => (none, prev, s)
  | fuel + 1, s, start, prev =>
    match read_char s with
    | none => (if passable start then some (.word start) else none, prev, s)
    | some (c, s2) =>
      match interpret_character c with
      | .letter lc => next_word fuel s2 (start.push lc) prev
      | .ordinary oc => next_word fuel s2 (start.push oc) prev
      | .eof => (if passable start then some (.word start) else none, some '\x00', s2)
      | .delim d =>
        if d = '<' then (some .empty, some '<', s2)
        else if d = ';' then
          if strEndsWith start "&apos" then
            next_word fuel s2 "" (some ';')
          else if strEndsWith start "&amp" then
            let st2 := strDropRight start 4
            if passable st2 then (some (.word st2), some ';', s2)
            else next_word fuel s2 "" (some ';')
          else if strEndsWith start "&gt" then
            let st2 := strDropRight start 3
            if passable st2 then (some (.word st2), some ';', s2)
            else next_word fuel s2 "" (some ';')
          else if strEndsWith start "&lt" then
            let st2 := strDropRight start 3
            if passable st2 then (some (.word st2), some ';', s2)
            else next_word fuel s2 "" (some ';')
          else if strEndsWith start "&quot" then
            let st2 := strDropRight start 5
            if passable st2 then (some (.word st2), some ';', s2)
            else next_word fuel s2 "" (some ';')
          else
            if passable start then (some (.word start), some ';', s2)
            else next_word fuel s2 "" (some ';')
        else
          if passable start then (some (.word start), some d, s2)
          else next_word fuel s2 "" prev

/-- Reader state of `RepeatedXmlReader` (rep_reader.rs lines 31-38):
remaining input bytes, the word provider `previous` slot, the
Inside/Outside position, and the expected zone index. -/
structure RepXmlState where
  stream : List Nat
  previous : Option Char
  inside : Bool
  attribute_index : Nat
  deriving DecidableEq

/-- `ReaderResult` (reader.rs lines 362-365): a word, or the end of the
current zone instance (`AttributeEnd`). -/
inductive ReaderResult
  | word (s : String)
  | attributeEnd
  deriving DecidableEq

/-- The skip loop `while read_char(...)? != '>' {}`. -/
def skipToGt : Nat → List Nat → Option (List Nat)
  | 0, _ => none
  | fuel + 1, s => do
    let (c, s2) ← read_char s
    if c = '>' then some s2 else skipToGt fuel s2

/-- `RepeatedXmlReader::next_word` (rep_reader.rs lines 127-206; the
`XmlReader` of reader.rs lines 384-463 is the same automaton with the
zone list fixed to `["text"]`).  While Outside, scan for an opening tag
whose name is the expected zone; while Inside, pull words from the word
provider; on a closing tag naming the expected zone return
`attributeEnd`.  The third argument carries the Inside-loop character
currently being dispatched (rep_reader.rs lines 158-204), taken from
`consume()` or freshly read.  `none` covers both the `?`-propagated end
of input of the source and fuel exhaustion; one fuel unit is spent per
loop iteration. -/
def repGo (attrs : List String) : Nat → RepXmlState → Option Char →
    Option (ReaderResult × RepXmlState)
  | 0, _, _ => none
  | fuel + 1, st, some c =>
    (match interpret_character c with
    | .letter lc =>
      match next_word (fuel + 1) st.stream (String.singleton lc) st.previous with
      | (none, _, _) => none
      | (some (.word w), prev2, s2) =>
        some (.word w, { st with stream := s2, previous := prev2 })
      | (some .empty, prev2, s2) =>
        repGo attrs fuel { st with stream := s2, previous := prev2 } none
    | .ordinary oc =>
      match next_word (fuel + 1) st.stream (String.singleton oc) st.previous with
      | (none, _, _) => none
      | (some (.word w), prev2, s2) =>
        some (.word w, { st with stream := s2, previous := prev2 })
      | (some .empty, prev2, s2) =>
        repGo attrs fuel { st with stream := s2, previous := prev2 } none
    | .eof => none
    | .delim d =>
      if d = '<' then
        match read_char st.stream with
        | none => none
        | some (c2, s2) =>
          if c2 = '/' then
            match next_word (fuel + 1) s2 "" st.previous with
            | (none, _, _) => none
            | (some (.word w), prev2, s3) =>
              if w = attrs.getD st.attribute_index "" then
                some (.attributeEnd,
                  { st with stream := s3, previous := prev2, inside := false })
              else repGo attrs fuel { st with stream := s3, previous := prev2 } none
            | (some .empty, prev2, s3) =>
              repGo attrs fuel { st with stream := s3, previous := prev2 } none
          else repGo attrs fuel { st with stream := s2 } none
      else repGo attrs fuel st none)
  | fuel + 1, st, none =>
    if st.inside = false then
      match read_char st.stream with
      | none => none
      | some (c, s2) =>
        if c ≠ '<' then repGo attrs fuel { st with stream := s2 } none
        else
          match read_char s2 with
          | none => none
          | some (c2, s3) =>
            if c2 = '/' then
              match skipToGt (fuel + 1) s3 with
              | none => none
              | some s4 => repGo attrs fuel { st with stream := s4 } none
            else
              let start0 := if c2 = ' ' then "" else String.singleton c2
              match next_word (fuel + 1) s3 start0 st.previous with
              | (none, _, _) => none
              | (some (.word w), prev2, s4) =>
                if w = attrs.getD st.attribute_index "" then
                  if prev2 = some '>' then
                    repGo attrs fuel
                      { st with stream := s4, previous := none, inside := true } none
                  else
                    match skipToGt (fuel + 1) s4 with
                    | none => none
                    | some s5 =>
                      repGo attrs fuel
                        { st with stream := s5, previous := none, inside := true } none
                else repGo attrs fuel { st with stream := s4, previous := prev2 } none
              | (some .empty, prev2, s4) =>
                repGo attrs fuel { st with stream := s4, previous := prev2 } none
    else
      match st.previous with
      | some v => repGo attrs fuel { st with previous := none } (some v)
      | none =>
        match read_char st.stream with
        | none => none
        | some (c, s2) => repGo attrs fuel { st with stream := s2 } (some c)

/-- One call of `RepeatedXmlReader::next_word`. -/
def repNextWord (attrs : List String) (fuel : Nat) (st : RepXmlState) :
    Option (ReaderResult × RepXmlState) :=
  repGo attrs fuel st none

/-- Driver corresponding to the parse loop: collect the `Word` tokens,
rotating the zone on each `attributeEnd` as `IndexParser::parse` does
via `transform_zone`. -/
def collectTokens (attrs : List String) : Nat → RepXmlState → List String
  | 0, _ => []
  | fuel + 1, st =>
    match repNextWord attrs (fuel + 1) st with
    | none => []
    | some (.word w, st2) => w :: collectTokens attrs fuel st2
    | some (.attributeEnd, st2) =>
      collectTokens attrs fuel
        { st2 with attribute_index := transform_zone attrs.length st2.attribute_index }

end InfPr7

namespace InfPr7

theorem variableSaveGo_congr :
    ∀ f1, ∀ f2 v, v ≤ f1 → v ≤ f2 → variableSaveGo f1 v = variableSaveGo f2 v := by
  intro f1
  induction f1 with
  | zero =>
    intro f2 v h1 _
    have hv : v = 0 := Nat.le_zero.mp h1
    subst hv
    cases f2 with
    | zero => rfl
    | succ f2 => simp [variableSaveGo]
  | succ f1 ih =>
    intro f2 v h1 h2
    cases f2 with
    | zero =>
      have hv : v = 0 := Nat.le_zero.mp h2
      subst hv
      simp [variableSaveGo]
    | succ f2 =>
      simp only [variableSaveGo]
      by_cases h : 0 < v / 128
      · have hlt : v / 128 < v := Nat.div_lt_self (by omega) (by omega)
        rw [if_pos h, if_pos h, ih f2 (v / 128) (by omega) (by omega)]
      · rw [if_neg h, if_neg h]

theorem variableSaveU64_small {n : Nat} (h : n < 128) :
    variableSaveU64 n = [n + 128] := by
  unfold variableSaveU64
  cases n with
  | zero => rfl
  | succ m =>
    have h0 : (m + 1) / 128 = 0 := Nat.div_eq_of_lt h
    simp [variableSaveGo, h0, Nat.mod_eq_of_lt h]

theorem variableSaveU64_large {n : Nat} (h : 128 ≤ n) :
    variableSaveU64 n = n % 128 :: variableSaveU64 (n / 128) := by
  unfold variableSaveU64
  obtain ⟨m, rfl⟩ : ∃ m, n = m + 1 := ⟨n - 1, by omega⟩
  have h0 : 0 < (m + 1) / 128 := Nat.div_pos h (by omega)
  simp only [variableSaveGo, if_pos h0]
  have hle : (m + 1) / 128 ≤ m := by
    have := Nat.div_lt_self (n := m + 1) (by omega) (by omega : 1 < 128)
    omega
  rw [variableSaveGo_congr m ((m + 1) / 128) ((m + 1) / 128) hle le_rfl]

theorem variableSaveU64_ne_nil (n : Nat) : variableSaveU64 n ≠ [] := by
  by_cases h : n < 128
  · rw [variableSaveU64_small h]; simp
  · rw [variableSaveU64_large (by omega)]; simp

theorem variableLoadAux_save (n : Nat) :
    ∀ acc shift rest,
      variableLoadAux (variableSaveU64 n ++ rest) acc shift
        = some (acc + n * 2 ^ shift, rest) := by
  induction n using Nat.strong_induction_on with
  | _ n ih =>
    intro acc shift rest
    by_cases h : n < 128
    · rw [variableSaveU64_small h]
      have h128 : 128 ≤ n + 128 := by omega
      simp [variableLoadAux, h128, Nat.add_mod_right, Nat.mod_eq_of_lt h]
    · push_neg at h
      have hlt : n / 128 < n := Nat.div_lt_self (by omega) (by omega)
      have hb : ¬ 128 ≤ n % 128 := by
        have := Nat.mod_lt n (y := 128) (by omega)
        omega
      rw [variableSaveU64_large h]
      have step :
          variableLoadAux ((n % 128 :: variableSaveU64 (n / 128)) ++ rest) acc shift
            = variableLoadAux (variableSaveU64 (n / 128) ++ rest)
                (acc + n % 128 * 2 ^ shift) (shift + 7) := by
        rw [List.cons_append]
        rw [variableLoadAux]
        simp [hb]
      rw [step, ih (n / 128) hlt]
      have hsplit : n % 128 + 128 * (n / 128) = n := Nat.mod_add_div n 128
      have harith :
          acc + n % 128 * 2 ^ shift + n / 128 * 2 ^ (shift + 7)
            = acc + n * 2 ^ shift := by
        calc acc + n % 128 * 2 ^ shift + n / 128 * 2 ^ (shift + 7)
            = acc + (n % 128 + 128 * (n / 128)) * 2 ^ shift := by
              rw [pow_add]; ring
          _ = acc + n * 2 ^ shift := by rw [hsplit]
      rw [harith]

theorem variableLoad_save (n : Nat) (rest : List Nat) :
    variableLoad (variableSaveU64 n ++ rest) = some (n, rest) := by
  unfold variableLoad
  simpa using variableLoadAux_save n 0 0 rest

theorem variableSaveU64_dropLast_lt (n : Nat) :
    ∀ b ∈ (variableSaveU64 n).dropLast, b < 128 := by
  induction n using Nat.strong_induction_on with
  | _ n ih =>
    by_cases h : n < 128
    · rw [variableSaveU64_small h]; simp
    · push_neg at h
      rw [variableSaveU64_large h]
      have hlt : n / 128 < n := Nat.div_lt_self (by omega) (by omega)
      have hne : variableSaveU64 (n / 128) ≠ [] := variableSaveU64_ne_nil _
      intro b hb
      rw [List.dropLast_cons_of_ne_nil hne] at hb
      rcases List.mem_cons.mp hb with hb | hb
      · have := Nat.mod_lt n (y := 128) (by omega)
        omega
      · exact ih (n / 128) hlt b hb

theorem variableSaveU64_getLast (n : Nat) :
    ∀ l, (variableSaveU64 n).getLast? = some l → 128 ≤ l := by
  induction n using Nat.strong_induction_on with
  | _ n ih =>
    by_cases h : n < 128
    · rw [variableSaveU64_small h]
      intro l hl
      simp at hl
      omega
    · push_neg at h
      rw [variableSaveU64_large h]
      have hlt : n / 128 < n := Nat.div_lt_self (by omega) (by omega)
      obtain ⟨c, cs, hcons⟩ := List.exists_cons_of_ne_nil (variableSaveU64_ne_nil (n / 128))
      intro l hl
      rw [hcons, List.getLast?_cons_cons] at hl
      exact ih (n / 128) hlt l (by rw [hcons]; exact hl)

/-- C5: for every `u64 n`, decoding the encoder's output returns `n`;
the encoding is one byte exactly when `n < 128`, gains one byte per
further 7 bits of magnitude, and the high bit is set only on the final
byte. -/
theorem varint_roundtrip (n : Nat) (h : n < 2 ^ 64) :
    variableLoad (variableSaveU64 n) = some (n, []) ∧
    ((variableSaveU64 n).length = 1 ↔ n < 128) ∧
    (128 ≤ n →
      (variableSaveU64 n).length = (variableSaveU64 (n / 128)).length + 1) ∧
    (∀ b ∈ (variableSaveU64 n).dropLast, b < 128) ∧
    (∀ l, (variableSaveU64 n).getLast? = some l → 128 ≤ l) := by
  refine ⟨by simpa using variableLoad_save n [], ?_, ?_,
    variableSaveU64_dropLast_lt n, variableSaveU64_getLast n⟩
  · constructor
    · intro hlen
      by_contra hge
      push_neg at hge
      rw [variableSaveU64_large hge] at hlen
      simp at hlen
      exact variableSaveU64_ne_nil _ hlen
    · intro hlt
      rw [variableSaveU64_small hlt]
      rfl
  · intro hge
    rw [variableSaveU64_large hge]
    rfl

/-- Witness for C5 at `n = 300`. -/
theorem varint_roundtrip_witness :
    variableLoad (variableSaveU64 300) = some (300, []) ∧
    ((variableSaveU64 300).length = 1 ↔ 300 < 128) ∧
    (128 ≤ 300 →
      (variableSaveU64 300).length = (variableSaveU64 (300 / 128)).length + 1) ∧
    (∀ b ∈ (variableSaveU64 300).dropLast, b < 128) ∧
    (∀ l, (variableSaveU64 300).getLast? = some l → 128 ≤ l) :=
  varint_roundtrip 300 (by norm_num)

/-- C6 counterexample: the encoding of `2 ^ 63 - 1` is 9 bytes long, not
10 as the claim states. -/
theorem varint_edges_counterexample :
    (variableSaveU64 (2 ^ 63 - 1)).length = 9 ∧
    (variableSaveU64 (2 ^ 63 - 1)).length ≠ 10 := by
  have h : variableSaveU64 (2 ^ 63 - 1) =
      [127, 127, 127, 127, 127, 127, 127, 127, 255] := by
    norm_num [variableSaveU64_large, variableSaveU64_small]
  rw [h]
  norm_num

/-- C6 amended: encoding `0, 1, 127, 128, 16383, 16384, 2^63-1` gives
byte lengths `1, 1, 1, 2, 2, 3, 9`, and each encoding decodes back to
the original value. -/
theorem varint_edges_amended :
    ([0, 1, 127, 128, 16383, 16384, 2 ^ 63 - 1].map
        (fun n => (variableSaveU64 n).length)) = [1, 1, 1, 2, 2, 3, 9] ∧
    ∀ n ∈ [0, 1, 127, 128, 16383, 16384, 2 ^ 63 - 1],
      variableLoad (variableSaveU64 n) = some (n, []) := by
  constructor
  · norm_num [variableSaveU64_large, variableSaveU64_small]
  · intro n hn
    simpa using variableLoad_save n []

theorem pushChain_spec {G : Type} (k : Nat) (v : G) :
    ∀ c : List (Nat × G), keyAsc c →
      keyAsc (pushChain c k v).1 ∧
      (pushChain c k v).1.length
        = (if k ∈ c.map Prod.fst then c.length else c.length + 1) ∧
      (pushChain c k v).2 = (if k ∈ c.dropLast.map Prod.fst then 0 else 1) ∧
      ∀ x ∈ (pushChain c k v).1, x = (k, v) ∨ x ∈ c := by
  intro c
  induction c with
  | nil =>
    intro _
    refine ⟨?_, ?_, ?_, ?_⟩ <;> simp [pushChain, keyAsc]
  | cons c tail ih =>
    intro hs
    cases tail with
    | nil =>
      rcases lt_trichotomy k c.1 with h | h | h
      · have hne : ¬ k ∈ [c].map Prod.fst := by simp; omega
        refine ⟨?_, ?_, ?_, ?_⟩ <;>
          simp [pushChain, h, hne, keyAsc, Nat.lt_asymm h, Nat.ne_of_lt h]
      · have hmem : k ∈ [c].map Prod.fst := by simp [h]
        refine ⟨?_, ?_, ?_, ?_⟩ <;>
          simp [pushChain, h, hmem, keyAsc]
      · have hne : ¬ k ∈ [c].map Prod.fst := by simp; omega
        refine ⟨?_, ?_, ?_, ?_⟩ <;>
          simp [pushChain, Nat.lt_asymm h, h, hne, keyAsc, Nat.ne_of_gt h]
    | cons c2 rest =>
      rw [keyAsc, List.pairwise_cons] at hs
      obtain ⟨hc, hs2⟩ := hs
      rcases lt_trichotomy k c.1 with h | h | h
      · have hk : ∀ y ∈ c :: c2 :: rest, k < y.1 := by
          intro y hy
          rcases List.mem_cons.mp hy with rfl | hy
          · exact h
          · exact lt_trans h (hc y hy)
        have hnm : ¬ k ∈ (c :: c2 :: rest).map Prod.fst := by
          simp only [List.mem_map]
          rintro ⟨y, hy, rfl⟩
          exact absurd (hk y hy) (lt_irrefl _)
        have hnm2 : ¬ k ∈ ((c :: c2 :: rest).dropLast).map Prod.fst := by
          simp only [List.mem_map]
          rintro ⟨y, hy, rfl⟩
          exact absurd (hk y (List.dropLast_subset _ hy)) (lt_irrefl _)
        refine ⟨?_, ?_, ?_, ?_⟩
        · rw [keyAsc]
          simp only [pushChain, if_pos (le_of_lt h), if_pos h]
          exact List.Pairwise.cons hk (List.pairwise_cons.mpr ⟨hc, hs2⟩)
        · simp only [pushChain, if_pos (le_of_lt h), if_pos h, if_neg hnm]
          simp
        · simp only [pushChain, if_pos (le_of_lt h), if_pos h, if_neg hnm2]
        · simp only [pushChain, if_pos (le_of_lt h), if_pos h]
          intro x hx
          rcases List.mem_cons.mp hx with rfl | hx
          · exact Or.inl rfl
          · exact Or.inr hx
      · have hmem : k ∈ (c :: c2 :: rest).map Prod.fst := by simp [h]
        have hmem2 : k ∈ ((c :: c2 :: rest).dropLast).map Prod.fst := by
          simp [List.dropLast, h]
        have hred : pushChain (c :: c2 :: rest) k v = (c :: c2 :: rest, 0) := by
          simp only [pushChain]
          rw [if_pos (by omega : k ≤ c.1), if_neg (by omega : ¬ k < c.1)]
        refine ⟨?_, ?_, ?_, ?_⟩
        · rw [keyAsc, hred]
          exact List.pairwise_cons.mpr ⟨hc, hs2⟩
        · rw [hred, if_pos hmem]
        · rw [hred, if_pos hmem2]
        · rw [hred]
          intro x hx
          exact Or.inr hx
      · have hred : pushChain (c :: c2 :: rest) k v
            = (c :: (pushChain (c2 :: rest) k v).1, (pushChain (c2 :: rest) k v).2) := by
          simp only [pushChain]
          rw [if_neg (by omega : ¬ k ≤ c.1)]
        obtain ⟨ihS, ihL, ihI, ihM⟩ := ih hs2
        have hkeys : k ∈ (c :: c2 :: rest).map Prod.fst
            ↔ k ∈ (c2 :: rest).map Prod.fst := by
          simp only [List.map_cons, List.mem_cons]
          constructor
          · rintro (rfl | hx)
            · exact absurd h (lt_irrefl _)
            · exact hx
          · exact Or.inr
        have hkeys2 : k ∈ ((c :: c2 :: rest).dropLast).map Prod.fst
            ↔ k ∈ ((c2 :: rest).dropLast).map Prod.fst := by
          simp only [List.dropLast, List.map_cons, List.mem_cons]
          constructor
          · rintro (rfl | hx)
            · exact absurd h (lt_irrefl _)
            · exact hx
          · exact Or.inr
        refine ⟨?_, ?_, ?_, ?_⟩
        · rw [keyAsc, hred]
          refine List.pairwise_cons.mpr ⟨?_, ihS⟩
          intro y hy
          rcases ihM y hy with rfl | hy
          · exact h
          · exact hc y hy
        · rw [hred]
          simp only [List.length_cons, ihL]
          by_cases hx : k ∈ (c2 :: rest).map Prod.fst
          · rw [if_pos hx, if_pos (hkeys.mpr hx)]
          · rw [if_neg hx, if_neg (fun hh => hx (hkeys.mp hh))]
        · rw [hred]
          simp only [ihI]
          by_cases hx : k ∈ ((c2 :: rest).dropLast).map Prod.fst
          · rw [if_pos hx, if_pos (hkeys2.mpr hx)]
          · rw [if_neg hx, if_neg (fun hh => hx (hkeys2.mp hh))]
        · rw [hred]
          intro x hx
          rcases List.mem_cons.mp hx with rfl | hx
          · exact Or.inr (List.mem_cons_self _ _)
          · rcases ihM x hx with rfl | hx
            · exact Or.inl rfl
            · exact Or.inr (List.mem_cons_of_mem _ hx)

theorem push_accounting {G : Type} (m : SortedLinkedMap G) (k : Nat) (v : G)
    (hs : keyAsc m.chain) (d : Nat) (hd : m.size = m.chain.length + d) :
    keyAsc (m.push k v).chain ∧
    (m.push k v).size
      = (m.push k v).chain.length
        + (d + (if m.chain.getLast?.map Prod.fst = some k then 1 else 0)) := by
  obtain ⟨hS, hL, hI, _⟩ := pushChain_spec k v m.chain hs
  refine ⟨hS, ?_⟩
  show m.size + (pushChain m.chain k v).2
      = (pushChain m.chain k v).1.length + _
  rw [hd, hL, hI]
  rcases List.eq_nil_or_concat m.chain with hnil | ⟨l2, b, hcat⟩
  · simp [hnil]
    omega
  · rw [List.concat_eq_append] at hcat
    have hlast : m.chain.getLast? = some b := by
      rw [hcat]; simp
    have hdrop : m.chain.dropLast = l2 := by
      rw [hcat]; simp
    have hsplit : m.chain.map Prod.fst = l2.map Prod.fst ++ [b.1] := by
      rw [hcat]; simp
    have hlt : ∀ a ∈ l2, a.1 < b.1 := by
      have := hs
      rw [keyAsc, hcat, List.pairwise_append] at this
      intro a ha
      exact this.2.2 a ha b (List.mem_singleton_self b)
    have hnotboth : ¬ (k ∈ l2.map Prod.fst ∧ b.1 = k) := by
      rintro ⟨hmem, rfl⟩
      simp only [List.mem_map] at hmem
      obtain ⟨a, ha, hak⟩ := hmem
      exact absurd (hlt a ha) (by omega)
    rw [hdrop, hlast, hsplit]
    by_cases hm : k ∈ l2.map Prod.fst
    · have hb : ¬ b.1 = k := fun hb => hnotboth ⟨hm, hb⟩
      have hkm : k ∈ l2.map Prod.fst ++ [b.1] := List.mem_append_left _ hm
      have hbne : ¬ (Option.map Prod.fst (some b) = some k) := by
        simp [hb]
      rw [if_pos hkm, if_pos hm, if_neg hbne]
      simp [hcat]
    · by_cases hb : b.1 = k
      · have hkm : k ∈ l2.map Prod.fst ++ [b.1] := by
          simp [hb]
        have hbeq : Option.map Prod.fst (some b) = some k := by simp [hb]
        rw [if_pos hkm, if_neg hm, if_pos hbeq]
        simp [hcat]
        omega
      · have hkm : ¬ k ∈ l2.map Prod.fst ++ [b.1] := by
          simp only [List.mem_append, List.mem_singleton]
          rintro (h | h)
          · exact hm h
          · exact hb h.symm
        have hbne : ¬ (Option.map Prod.fst (some b) = some k) := by
          simp [hb]
        rw [if_neg hkm, if_neg hm, if_neg hbne]
        omega

theorem buildFold_spec {G : Type} (ops : List (Nat × G)) :
    ∀ (m : SortedLinkedMap G) (d : Nat), keyAsc m.chain →
      m.size = m.chain.length + d →
      keyAsc (ops.foldl (fun m kv => m.push kv.1 kv.2) m).chain ∧
      (ops.foldl (fun m kv => m.push kv.1 kv.2) m).size
        = (ops.foldl (fun m kv => m.push kv.1 kv.2) m).chain.length
          + (d + degPushCount m ops) := by
  induction ops with
  | nil =>
    intro m d hs hd
    exact ⟨hs, by simpa [degPushCount] using hd⟩
  | cons kv ops ih =>
    intro m d hs hd
    obtain ⟨hS, hAcc⟩ := push_accounting m kv.1 kv.2 hs d hd
    obtain ⟨hS2, hAcc2⟩ := ih (m.push kv.1 kv.2)
      (d + (if m.chain.getLast?.map Prod.fst = some kv.1 then 1 else 0)) hS hAcc
    refine ⟨by simpa using hS2, ?_⟩
    have hdeg : degPushCount m (kv :: ops)
        = (if m.chain.getLast?.map Prod.fst = some kv.1 then 1 else 0)
          + degPushCount (m.push kv.1 kv.2) ops := rfl
    simp only [List.foldl_cons]
    rw [hAcc2, hdeg]
    omega

/-- C9 amended: iteration over a map built by any sequence of pushes
yields entries with strictly ascending keys, but `len()` equals the
number of iterated entries plus one for every push whose key equalled
the key of the then-last entry (such pushes insert nothing yet increment
`size`); `len()` therefore matches the iteration count only when no push
hits that case. -/
theorem c9_push_amended {G : Type} (ops : List (Nat × G)) :
    keyAsc (buildMap ops).iterList ∧
    (buildMap ops).len
      = (buildMap ops).iterList.length + degPushCount SortedLinkedMap.new ops := by
  have h := buildFold_spec ops SortedLinkedMap.new 0 (by simp [keyAsc, SortedLinkedMap.new]) (by simp [SortedLinkedMap.new])
  exact ⟨h.1, by simpa [buildMap, SortedLinkedMap.len, SortedLinkedMap.iterList] using h.2⟩

/-- C9 counterexample: pushing key 0 twice gives `len() = 2` while
iteration yields a single entry, refuting the claim that `len()` always
equals the number of iterated entries. -/
theorem c9_len_counterexample :
    (buildMap [((0 : Nat), (0 : Nat)), (0, 1)]).len = 2 ∧
    (buildMap [((0 : Nat), (0 : Nat)), (0, 1)]).iterList.length = 1 ∧
    (buildMap [((0 : Nat), (0 : Nat)), (0, 1)]).len
      ≠ (buildMap [((0 : Nat), (0 : Nat)), (0, 1)]).iterList.length := by
  refine ⟨rfl, rfl, by decide⟩

/-- C2 (code bug): the combinator handed to `SortedLinkedMap::or` by
`Term::combine` is `|_, _| {}`, so on the shared docId 0 the left
posting `(occ 1, mask 1)` is kept unchanged instead of becoming
`(occ 1+1, mask 1 ||| 2)` as the claim and spec demand. -/
theorem c2_combine_code_bug :
    IndexedTerm.combine ⟨"foo", 1, ⟨[(0, ⟨1, 1⟩)], 1⟩⟩ ⟨"foo", 1, ⟨[(0, ⟨1, 2⟩)], 1⟩⟩
      = some ⟨"foo", 2, ⟨[(0, ⟨1, 1⟩)], 1⟩⟩ ∧
    (⟨1, 1⟩ : UsageData) ≠ ⟨1 + 1, 1 ||| 2⟩ := by
  constructor
  · simp [IndexedTerm.combine, SortedLinkedMap.or, orGo]
  · decide

/-- C1 (code bug): pushing the strictly ascending terms `a` (use 1,
postings `{0 -> (occ 1, mask 1)}`) and `b` (use 2, postings
`{5 -> (occ 2, mask 2)}`) with block size 2 and finishing, then reading
the run back, does NOT return the original posting maps:
`SortedLinkedMap::variable_save` interleaves each key delta before the
PREVIOUS value and never writes the last value, while `variable_load`
expects the first value directly after the first key, so the loader
consumes the bytes of the next posting list — term `a` reads back with
zone byte 133 (the body of b-s list) instead of 1, and the read of term
b-s postings runs off the end of `index_part` (where the source loops
forever on a zero buffer).  Terms and use counts do survive, the
posting maps do not. -/
theorem c1_roundtrip_code_bug :
    (do
      let sv ← (IndexMergeSaver.new 2).push ⟨"a", 1, ⟨[(0, ⟨1, 1⟩)], 1⟩⟩
      let sv ← sv.push ⟨"b", 2, ⟨[(5, ⟨2, 2⟩)], 1⟩⟩
      let run ← sv.finish
      let (t1, p) ← (IndexTermProvider.ofRun run).next_term
      some (t1, p.next_term))
      = some (⟨"a", 1, ⟨[(0, ⟨1, 133⟩)], 1⟩⟩, none) ∧
    (⟨[(0, ⟨1, 133⟩)], 1⟩ : SortedLinkedMap UsageData) ≠ ⟨[(0, ⟨1, 1⟩)], 1⟩ := by
  constructor
  · rfl
  · decide

/-- C3 (code bug): the bounds check of the initial file claim is
inverted.  With a single input file the first worker claims index 0 and
the code exits at once (`files.names.len() >= next_file`, i.e. `1 >= 0`)
without parsing or spilling, although index 0 is in bounds and the claim
requires exit only past the end; and the past-the-end index produced by
the `FileEnd` arm is fed to `IndexPositions::put`, which panics
(`none`), instead of the claimed final spill and exit. -/
theorem c3_worker_claim_code_bug :
    workerInitialClaimExits 1 0 = true ∧
    workerInitialClaimExitsSpec 1 0 = false ∧
    IndexPositions.put ⟨[("f", 0)], []⟩ 1 = none := by
  refine ⟨rfl, rfl, rfl⟩

/-- C7 (code bug): inside the zone, the input
`<text>Rock &amp; roll, don&apos;t stop</text>` tokenizes to
`rock, roll, t` — not `rock, roll, don't, stop`: the `&apos` branch of
the word provider inserts the apostrophe but then falls through to
`start.clear()`, discarding the token built so far (so only the `t`
after the entity survives), and a word terminated directly by `<`
(here `stop`) is dropped because the `<` delimiter arm returns `Empty`
unconditionally. -/
theorem c7_entity_tokens_code_bug :
    collectTokens ["text"] 500
      ⟨strBytes "<text>Rock &amp; roll, don&apos;t stop</text>", none, false, 0⟩
      = ["rock", "roll", "t"] ∧
    (["rock", "roll", "t"] : List String)
      ≠ ["rock", "roll", "don" ++ (Char.ofNat 39).toString ++ "t", "stop"] := by
  constructor
  · rfl
  · decide

/-- C8 counterexample: on the malformed stream consisting of the lone
continuation byte `0x80`, `read_char` returns a decoded character
(codepoint 128) and `read_char_reader` succeeds likewise — the build
does not fail with an error, contrary to the claim. -/
theorem c8_strict_utf8_counterexample :
    read_char [128] = some (Char.ofNat 128, []) ∧
    read_char_reader [128] = .ok (Char.ofNat 128, []) := by
  refine ⟨rfl, rfl⟩

theorem fromU32_valid {n : Nat} (h : n.isValidChar) :
    fromU32 n = some (Char.ofNat n) := by
  unfold fromU32 Char.ofNat
  rw [dif_pos h, dif_pos h]

theorem fromU32_invalid {n : Nat} (h : ¬ n.isValidChar) : fromU32 n = none := by
  unfold fromU32
  rw [dif_neg h]

/-- C8 amended: the decoders are not strict, on every input stream.
Every lead byte `b < 0xC0` — in particular every lone continuation byte
— is decoded as the codepoint `b` itself; whenever the stream holds
fewer continuation bytes than the lead byte requires (a truncated
sequence), `read_char` reports end of input (`none`) while
`read_char_reader` raises the I/O error; and a decode error is raised
exactly when the assembled codepoint is not a Unicode scalar value, in
which case `read_char` returns `none` — otherwise both decoders return
the assembled character, however malformed the continuation bytes
are. -/
theorem c8_utf8_amended (b : Nat) (rest : List Nat) :
    (b < 192 →
      read_char (b :: rest) = some (Char.ofNat b, rest) ∧
      read_char_reader (b :: rest) = .ok (Char.ofNat b, rest)) ∧
    (assembledCodepoint b rest = none →
      read_char (b :: rest) = none ∧
      read_char_reader (b :: rest) = .error "eof") ∧
    (∀ n, assembledCodepoint b rest = some n → ¬ n.isValidChar →
      read_char (b :: rest) = none ∧
      read_char_reader (b :: rest) = .error "char doesn't follow utf standard") ∧
    (∀ n, assembledCodepoint b rest = some n → n.isValidChar →
      ∃ rem, read_char (b :: rest) = some (Char.ofNat n, rem) ∧
        read_char_reader (b :: rest) = .ok (Char.ofNat n, rem)) := by
  by_cases h240 : 240 ≤ b
  · have hblt : ¬ b < 192 := by omega
    rcases rest with _ | ⟨r0, _ | ⟨r1, _ | ⟨r2, rr⟩⟩⟩
    · refine ⟨fun hb => absurd hb hblt, fun _ => ⟨?_, ?_⟩, fun n hn _ => ?_, fun n hn _ => ?_⟩
      · simp [read_char, h240]
      · simp [read_char_reader, h240]
      · simp [assembledCodepoint, h240] at hn
      · simp [assembledCodepoint, h240] at hn
    · refine ⟨fun hb => absurd hb hblt, fun _ => ⟨?_, ?_⟩, fun n hn _ => ?_, fun n hn _ => ?_⟩
      · simp [read_char, h240]
      · simp [read_char_reader, h240]
      · simp [assembledCodepoint, h240] at hn
      · simp [assembledCodepoint, h240] at hn
    · refine ⟨fun hb => absurd hb hblt, fun _ => ⟨?_, ?_⟩, fun n hn _ => ?_, fun n hn _ => ?_⟩
      · simp [read_char, h240]
      · simp [read_char_reader, h240]
      · simp [assembledCodepoint, h240] at hn
      · simp [assembledCodepoint, h240] at hn
    · refine ⟨fun hb => absurd hb hblt, fun hA => ?_, fun n hn hnv => ?_, fun n hn hnv => ?_⟩
      · simp [assembledCodepoint, h240] at hA
      · simp only [assembledCodepoint, if_pos h240] at hn
        have hn2 := Option.some.inj hn
        subst hn2
        exact ⟨by simp [read_char, h240, fromU32_invalid hnv],
          by simp [read_char_reader, h240, fromU32_invalid hnv]⟩
      · simp only [assembledCodepoint, if_pos h240] at hn
        have hn2 := Option.some.inj hn
        subst hn2
        exact ⟨rr, by simp [read_char, h240, fromU32_valid hnv],
          by simp [read_char_reader, h240, fromU32_valid hnv]⟩
  · by_cases h224 : 224 ≤ b
    · have hblt : ¬ b < 192 := by omega
      rcases rest with _ | ⟨r0, _ | ⟨r1, rr⟩⟩
      · refine ⟨fun hb => absurd hb hblt, fun _ => ⟨?_, ?_⟩, fun n hn _ => ?_, fun n hn _ => ?_⟩
        · simp [read_char, h240, h224]
        · simp [read_char_reader, h240, h224]
        · simp [assembledCodepoint, h240, h224] at hn
        · simp [assembledCodepoint, h240, h224] at hn
      · refine ⟨fun hb => absurd hb hblt, fun _ => ⟨?_, ?_⟩, fun n hn _ => ?_, fun n hn _ => ?_⟩
        · simp [read_char, h240, h224]
        · simp [read_char_reader, h240, h224]
        · simp [assembledCodepoint, h240, h224] at hn
        · simp [assembledCodepoint, h240, h224] at hn
      · refine ⟨fun hb => absurd hb hblt, fun hA => ?_, fun n hn hnv => ?_, fun n hn hnv => ?_⟩
        · simp [assembledCodepoint, h240, h224] at hA
        · simp only [assembledCodepoint, if_neg h240, if_pos h224] at hn
          have hn2 := Option.some.inj hn
          subst hn2
          exact ⟨by simp [read_char, h240, h224, fromU32_invalid hnv],
            by simp [read_char_reader, h240, h224, fromU32_invalid hnv]⟩
        · simp only [assembledCodepoint, if_neg h240, if_pos h224] at hn
          have hn2 := Option.some.inj hn
          subst hn2
          exact ⟨rr, by simp [read_char, h240, h224, fromU32_valid hnv],
            by simp [read_char_reader, h240, h224, fromU32_valid hnv]⟩
    · by_cases h192 : 192 ≤ b
      · have hblt : ¬ b < 192 := by omega
        rcases rest with _ | ⟨r0, rr⟩
        · refine ⟨fun hb => absurd hb hblt, fun _ => ⟨?_, ?_⟩, fun n hn _ => ?_,
            fun n hn _ => ?_⟩
          · simp [read_char, h240, h224, h192]
          · simp [read_char_reader, h240, h224, h192]
          · simp [assembledCodepoint, h240, h224, h192] at hn
          · simp [assembledCodepoint, h240, h224, h192] at hn
        · refine ⟨fun hb => absurd hb hblt, fun hA => ?_, fun n hn hnv => ?_,
            fun n hn hnv => ?_⟩
          · simp [assembledCodepoint, h240, h224, h192] at hA
          · simp only [assembledCodepoint, if_neg h240, if_neg h224, if_pos h192] at hn
            have hn2 := Option.some.inj hn
            subst hn2
            exact ⟨by simp [read_char, h240, h224, h192, fromU32_invalid hnv],
              by simp [read_char_reader, h240, h224, h192, fromU32_invalid hnv]⟩
          · simp only [assembledCodepoint, if_neg h240, if_neg h224, if_pos h192] at hn
            have hn2 := Option.some.inj hn
            subst hn2
            exact ⟨rr, by simp [read_char, h240, h224, h192, fromU32_valid hnv],
              by simp [read_char_reader, h240, h224, h192, fromU32_valid hnv]⟩
      · have hval : Nat.isValidChar b := Or.inl (by omega)
        refine ⟨fun _ => ⟨?_, ?_⟩, fun hA => ?_, fun n hn hnv => ?_, fun n hn hnv => ?_⟩
        · simp [read_char, h240, h224, h192, fromU32_valid hval]
        · simp [read_char_reader, h240, h224, h192, fromU32_valid hval]
        · simp [assembledCodepoint, h240, h224, h192] at hA
        · simp only [assembledCodepoint, if_neg h240, if_neg h224, if_neg h192] at hn
          have hn2 := Option.some.inj hn
          subst hn2
          exact absurd hval hnv
        · simp only [assembledCodepoint, if_neg h240, if_neg h224, if_neg h192] at hn
          have hn2 := Option.some.inj hn
          subst hn2
          exact ⟨rest, by simp [read_char, h240, h224, h192, fromU32_valid hnv],
            by simp [read_char_reader, h240, h224, h192, fromU32_valid hnv]⟩

/-- Witness for C8 exercising all three behaviours: the lone
continuation byte `0x80` (decoded as codepoint 128), the truncated
four-byte lead `0xF0` (end of input and I/O error), and the surrogate
encoding `ED A0 80` whose assembled codepoint 55296 is not a scalar
value (decode error). -/
theorem c8_utf8_amended_witness :
    (read_char [128] = some (Char.ofNat 128, []) ∧
      read_char_reader [128] = .ok (Char.ofNat 128, [])) ∧
    (read_char [240] = none ∧ read_char_reader [240] = .error "eof") ∧
    (read_char [237, 160, 128] = none ∧
      read_char_reader [237, 160, 128]
        = .error "char doesn't follow utf standard") :=
  ⟨(c8_utf8_amended 128 []).1 (by decide),
    (c8_utf8_amended 240 []).2.1 rfl,
    (c8_utf8_amended 237 [160, 128]).2.2.1 55296 rfl (by decide)⟩

theorem minHead?_eq_none {α : Type} [LinearOrder α] :
    ∀ streams : List (List α), minHead? streams = none ↔ ∀ s ∈ streams, s = [] := by
  intro streams
  induction streams with
  | nil => simp [minHead?]
  | cons s rest ih =>
    cases s with
    | nil =>
      simp only [minHead?]
      rw [ih]
      constructor
      · intro h s hs
        rcases List.mem_cons.mp hs with rfl | hs
        · rfl
        · exact h s hs
      · intro h s hs
        exact h s (List.mem_cons_of_mem _ hs)
    | cons a tl =>
      simp only [minHead?]
      constructor
      · intro h
        cases hrest : minHead? rest <;> simp [hrest] at h
      · intro h
        exact absurd (h (a :: tl) (List.mem_cons_self _ _)) (by simp)

theorem minHead?_attained {α : Type} [LinearOrder α] :
    ∀ streams : List (List α), ∀ t, minHead? streams = some t →
      ∃ s ∈ streams, s.head? = some t := by
  intro streams
  induction streams with
  | nil => intro t h; simp [minHead?] at h
  | cons s rest ih =>
    cases s with
    | nil =>
      intro t h
      obtain ⟨s2, hs2, hh⟩ := ih t h
      exact ⟨s2, List.mem_cons_of_mem _ hs2, hh⟩
    | cons a tl =>
      intro t h
      simp only [minHead?] at h
      cases hrest : minHead? rest with
      | none =>
        rw [hrest] at h
        simp at h
        exact ⟨a :: tl, List.mem_cons_self _ _, by simp [h]⟩
      | some b =>
        rw [hrest] at h
        simp at h
        rcases min_choice a b with hm | hm
        · rw [hm] at h
          exact ⟨a :: tl, List.mem_cons_self _ _, by simp [h]⟩
        · rw [hm] at h
          subst h
          obtain ⟨s2, hs2, hh⟩ := ih b hrest
          exact ⟨s2, List.mem_cons_of_mem _ hs2, hh⟩

theorem minHead?_le {α : Type} [LinearOrder α] :
    ∀ streams : List (List α), ∀ t, minHead? streams = some t →
      ∀ s ∈ streams, ∀ h, s.head? = some h → t ≤ h := by
  intro streams
  induction streams with
  | nil => intro t _ s hs; simp at hs
  | cons s0 rest ih =>
    cases s0 with
    | nil =>
      intro t hmin s hs h hh
      rcases List.mem_cons.mp hs with rfl | hs
      · simp at hh
      · exact ih t hmin s hs h hh
    | cons a tl =>
      intro t hmin s hs h hh
      simp only [minHead?] at hmin
      cases hrest : minHead? rest with
      | none =>
        rw [hrest] at hmin
        simp at hmin
        subst hmin
        rcases List.mem_cons.mp hs with rfl | hs
        · simp at hh
          exact le_of_eq hh
        · have hnil : s = [] := (minHead?_eq_none rest).mp hrest s hs
          subst hnil
          simp at hh
      | some b =>
        rw [hrest] at hmin
        simp at hmin
        subst hmin
        rcases List.mem_cons.mp hs with rfl | hs
        · simp at hh
          subst hh
          exact min_le_left a b
        · exact le_trans (min_le_right a b) (ih b hrest s hs h hh)

theorem mergeStep_sorted {α : Type} [LinearOrder α] (streams : List (List α)) (t : α)
    (hs : ∀ s ∈ streams, s.Pairwise (· < ·)) :
    ∀ s2 ∈ mergeStep streams t, s2.Pairwise (· < ·) := by
  intro s2 hs2
  obtain ⟨s, hsmem, rfl⟩ := List.mem_map.mp hs2
  by_cases hh : s.head? = some t
  · rw [if_pos hh]
    cases s with
    | nil => simp
    | cons a tl => exact (List.pairwise_cons.mp (hs _ hsmem)).2
  · rw [if_neg hh]
    exact hs s hsmem

theorem mergeStep_length_le {α : Type} [LinearOrder α] :
    ∀ (streams : List (List α)) (t : α),
      ((mergeStep streams t).map List.length).sum ≤ (streams.map List.length).sum := by
  intro streams t
  induction streams with
  | nil => simp [mergeStep]
  | cons s rest ih =>
    simp only [mergeStep, List.map_cons, List.sum_cons] at *
    have h1 : (if s.head? = some t then s.tail else s).length ≤ s.length := by
      split
      · rw [List.length_tail]
        omega
      · exact le_rfl
    omega

theorem mergeStep_length_lt {α : Type} [LinearOrder α] :
    ∀ (streams : List (List α)) (t : α),
      (∃ s ∈ streams, s.head? = some t) →
      ((mergeStep streams t).map List.length).sum < (streams.map List.length).sum := by
  intro streams t
  induction streams with
  | nil => rintro ⟨s, hs, _⟩; simp at hs
  | cons s0 rest ih =>
    rintro ⟨s, hs, hh⟩
    simp only [mergeStep, List.map_cons, List.sum_cons]
    rcases List.mem_cons.mp hs with rfl | hs
    · rw [if_pos hh]
      have hne : s ≠ [] := by
        intro h
        subst h
        simp at hh
      have h1 : s.tail.length < s.length := by
        cases s with
        | nil => exact absurd rfl hne
        | cons a tl => simp
      have h2 := mergeStep_length_le (α := α) rest t
      simp only [mergeStep] at h2
      omega
    · have h1 : (if s0.head? = some t then s0.tail else s0).length ≤ s0.length := by
        split
        · rw [List.length_tail]
          omega
        · exact le_rfl
      have h2 := ih ⟨s, hs, hh⟩
      simp only [mergeStep] at h2
      omega

theorem mergeStep_gt {α : Type} [LinearOrder α] (streams : List (List α)) (t : α)
    (hs : ∀ s ∈ streams, s.Pairwise (· < ·))
    (hmin : ∀ s ∈ streams, ∀ h, s.head? = some h → t ≤ h) :
    ∀ s2 ∈ mergeStep streams t, ∀ x ∈ s2, t < x := by
  intro s2 hs2 x hx
  obtain ⟨s, hsmem, rfl⟩ := List.mem_map.mp hs2
  cases s with
  | nil => simp at hx
  | cons a tl =>
    have hta : t ≤ a := hmin (a :: tl) hsmem a (by simp)
    have htl : ∀ y ∈ tl, a < y := (List.pairwise_cons.mp (hs _ hsmem)).1
    by_cases hh : (a :: tl).head? = some t
    · rw [if_pos hh] at hx
      simp at hh
      subst hh
      exact htl x hx
    · rw [if_neg hh] at hx
      have hne : a ≠ t := by
        intro h
        exact hh (by simp [h])
      rcases List.mem_cons.mp hx with rfl | hx
      · exact lt_of_le_of_ne hta (fun h => hne h.symm)
      · exact lt_of_le_of_lt hta (htl x hx)

theorem mergeRun_spec {α : Type} [LinearOrder α] :
    ∀ (fuel : Nat) (streams : List (List α)),
      (streams.map List.length).sum ≤ fuel →
      (∀ s ∈ streams, s.Pairwise (· < ·)) →
      (mergeRun fuel streams).Pairwise (· < ·) ∧
      (∀ t, t ∈ mergeRun fuel streams ↔ ∃ s ∈ streams, t ∈ s) := by
  intro fuel
  induction fuel with
  | zero =>
    intro streams hfuel _
    have hempty : ∀ s ∈ streams, s = [] := by
      intro s hs
      have h1 : s.length ≤ (streams.map List.length).sum :=
        List.le_sum_of_mem (List.mem_map_of_mem List.length hs)
      have : s.length = 0 := by omega
      exact List.length_eq_zero.mp this
    refine ⟨by simp [mergeRun], ?_⟩
    intro t
    simp only [mergeRun, List.not_mem_nil, false_iff]
    rintro ⟨s, hs, ht⟩
    rw [hempty s hs] at ht
    simp at ht
  | succ fuel ih =>
    intro streams hfuel hs
    cases hM : minHead? streams with
    | none =>
      have hempty := (minHead?_eq_none streams).mp hM
      refine ⟨by simp [mergeRun, hM], ?_⟩
      intro t
      simp only [mergeRun, hM, List.not_mem_nil, false_iff]
      rintro ⟨s, hsmem, ht⟩
      rw [hempty s hsmem] at ht
      simp at ht
    | some t =>
      have hatt := minHead?_attained streams t hM
      have hle := minHead?_le streams t hM
      have hlt := mergeStep_length_lt streams t hatt
      have hsort2 := mergeStep_sorted streams t hs
      obtain ⟨ihS, ihM⟩ := ih (mergeStep streams t) (by omega) hsort2
      have hgt := mergeStep_gt streams t hs hle
      have hout : mergeRun (fuel + 1) streams
          = t :: mergeRun fuel (mergeStep streams t) := by
        simp [mergeRun, hM]
      constructor
      · rw [hout]
        refine List.pairwise_cons.mpr ⟨?_, ihS⟩
        intro x hx
        obtain ⟨s2, hs2, hxs2⟩ := (ihM x).mp hx
        exact hgt s2 hs2 x hxs2
      · intro x
        rw [hout]
        simp only [List.mem_cons]
        constructor
        · rintro (rfl | hx)
          · obtain ⟨s, hsmem, hh⟩ := hatt
            refine ⟨s, hsmem, ?_⟩
            cases s with
            | nil => simp at hh
            | cons a tl =>
              simp at hh
              simp [hh]
          · obtain ⟨s2, hs2, hxs2⟩ := (ihM x).mp hx
            obtain ⟨s, hsmem, rfl⟩ := List.mem_map.mp hs2
            refine ⟨s, hsmem, ?_⟩
            split at hxs2
            · exact List.mem_of_mem_tail hxs2
            · exact hxs2
        · rintro ⟨s, hsmem, hxs⟩
          by_cases hxt : x = t
          · exact Or.inl hxt
          · refine Or.inr ((ihM x).mpr ⟨(if s.head? = some t then s.tail else s),
              List.mem_map_of_mem _ hsmem, ?_⟩)
            by_cases hh : s.head? = some t
            · rw [if_pos hh]
              cases s with
              | nil => simp at hxs
              | cons a tl =>
                simp at hh
                subst hh
                rcases List.mem_cons.mp hxs with rfl | hxs
                · exact absurd rfl hxt
                · exact hxs
            · rw [if_neg hh]
              exact hxs

/-- C4: for providers whose term streams are strictly ascending, the
stream of terms the merge loop writes is strictly ascending, consists
exactly of the terms occurring in at least one provider stream, and
contains each exactly once.  In one round every provider whose current
head equals the minimum is drained before the write (that is what
`mergeStep` does), and the emitted terms do not depend on any order
among those equal-keyed contributors. -/
theorem c4_merger_unique_terms {α : Type} [LinearOrder α] (streams : List (List α))
    (hs : ∀ s ∈ streams, s.Pairwise (· < ·)) :
    (mergeOut streams).Pairwise (· < ·) ∧
    (∀ t, t ∈ mergeOut streams ↔ ∃ s ∈ streams, t ∈ s) ∧
    (∀ t ∈ mergeOut streams, (mergeOut streams).count t = 1) := by
  obtain ⟨hS, hMem⟩ := mergeRun_spec (streams.map List.length).sum streams le_rfl hs
  refine ⟨hS, hMem, ?_⟩
  intro t ht
  have hnd : (mergeOut streams).Nodup := hS.imp ne_of_lt
  exact List.count_eq_one_of_mem hnd ht

/-- Witness for C4 with three providers holding `[0, 2]`, `[1, 2]` and
the empty stream. -/
theorem c4_merger_unique_terms_witness :
    ((mergeOut [[(0 : Nat), 2], [1, 2], []]).Pairwise (· < ·) ∧
      (∀ t, t ∈ mergeOut [[(0 : Nat), 2], [1, 2], []]
        ↔ ∃ s ∈ [[(0 : Nat), 2], [1, 2], []], t ∈ s) ∧
      (∀ t ∈ mergeOut [[(0 : Nat), 2], [1, 2], []],
        (mergeOut [[(0 : Nat), 2], [1, 2], []]).count t = 1)) :=
  c4_merger_unique_terms [[0, 2], [1, 2], []] (by decide)

theorem transform_zone_iterate (k : Nat) (hk : 0 < k) :
    ∀ (m i : Nat), i < k → (transform_zone k)^[m] i = (i + m) % k := by
  intro m
  induction m with
  | zero =>
    intro i hi
    simp [Nat.mod_eq_of_lt hi]
  | succ m ih =>
    intro i hi
    rw [Function.iterate_succ_apply]
    rw [ih (transform_zone k i) (Nat.mod_lt _ hk)]
    unfold transform_zone
    rw [Nat.mod_add_mod]
    congr 1
    omega

/-- C10: with a non-empty list of `k` zone names and any in-range
starting index, applying `transform_zone` exactly `k` times returns the
index, and hence the expected zone tag `zone()`, to its prior value. -/
theorem c10_zone_rotation (zones : List String) (i : Nat)
    (hk : 0 < zones.length) (hi : i < zones.length) :
    (transform_zone zones.length)^[zones.length] i = i ∧
    zoneAt zones ((transform_zone zones.length)^[zones.length] i) = zoneAt zones i := by
  have h : (transform_zone zones.length)^[zones.length] i = i := by
    rw [transform_zone_iterate zones.length hk zones.length i hi,
      Nat.add_mod_right, Nat.mod_eq_of_lt hi]
  exact ⟨h, by rw [h]⟩

/-- Witness for C10 with zones `["title", "text"]` and starting index
1. -/
theorem c10_zone_rotation_witness :
    ((transform_zone (["title", "text"] : List String).length)^[
        (["title", "text"] : List String).length] 1 = 1 ∧
      zoneAt ["title", "text"]
          ((transform_zone (["title", "text"] : List String).length)^[
            (["title", "text"] : List String).length] 1)
        = zoneAt ["title", "text"] 1) :=
  c10_zone_rotation ["title", "text"] 1 (by decide) (by decide)

end InfPr7
